import Mathlib

/-!
Verification of the line-protocol filter (`foo.cpp`) from the Spark
efficiency lecture: a C++ program that reads standard input line by line,
extracts whitespace-separated floating point numbers from each line with
`stream >> u`, and, when at least one number was parsed, prints the sum of
squares of the line's numbers with `cout << x << endl`.

The embedding models doubles as exact rationals (`ℚ`): every concrete value
exercised by the spec is exactly representable, and the claims under study
are structural (parsing, line handling, folding), not rounding claims.

Stream extraction (`operator>>` into a `double`) is modelled faithfully to
the C++ semantics: skip whitespace, then consume the longest prefix that
forms a decimal floating literal (optional sign, digits with optional
fractional part, optional complete exponent); extraction fails only when no
such nonempty prefix exists.  `std::getline` together with the enclosing
`while (cin)` loop is modelled with an explicit stream-state structure
carrying `eofbit`/`failbit`, including the sentry behaviour of a `getline`
call on a stream whose `eofbit` is already set: it sets `failbit` and
leaves the target string unchanged.

The loops of the program are embedded as fuel-indexed structural recursions
(so that every definition evaluates by kernel reduction), and for each loop
an unfolding theorem proves that the chosen fuel is always sufficient, so
the fuelled function satisfies the loop's defining equation.
-/

namespace Foo

/-! ## Definitions: the shallow embedding of `foo.cpp` -/

/-- The whitespace characters recognised by the default C locale's
`isspace`, which is what stream extraction skips. -/
def isSpace (c : Char) : Bool :=
  c = ' ' || c = '\t' || c = '\n' || c = '\r' || c = '\x0b' || c = '\x0c'

/-- Numeric value of a string of decimal digit characters, most significant
first. -/
def digitsVal (ds : List Char) : Nat :=
  ds.foldl (fun a c => 10 * a + (c.toNat - 48)) 0

/-- The unsigned-mantissa part of C++ `num_get` extraction of a `double`:
either digits with an optional fractional part (`12`, `12.`, `12.5`) or a
fractional part alone (`.5`); fails when neither an integer digit nor a
fractional digit is present.  Returns the value and the unconsumed rest. -/
def parseUnsigned (cs : List Char) : Option (ℚ × List Char) :=
  let ip := cs.takeWhile Char.isDigit
  let r1 := cs.dropWhile Char.isDigit
  match r1 with
  | c :: r2 =>
    if c = '.' then
      let fp := r2.takeWhile Char.isDigit
      let r3 := r2.dropWhile Char.isDigit
      if ip.isEmpty && fp.isEmpty then none
      else some ((digitsVal ip : ℚ) + (digitsVal fp : ℚ) / (10 : ℚ) ^ fp.length, r3)
    else if ip.isEmpty then none else some ((digitsVal ip : ℚ), r1)
  | [] => if ip.isEmpty then none else some ((digitsVal ip : ℚ), r1)

/-- Is the character an exponent marker of a floating literal? -/
def expChar (c : Char) : Bool :=
  c = 'e' || c = 'E'

/-- Scale a mantissa by `10 ^ e`, with `pos = true` meaning a nonnegative
exponent. -/
def applyExp (q : ℚ) (pos : Bool) (e : Nat) : ℚ :=
  if pos then q * (10 : ℚ) ^ e else q / (10 : ℚ) ^ e

/-- The optional exponent part of extraction: an `e`/`E` followed by an
optional sign and at least one digit scales the mantissa; an exponent
marker not followed by a digit makes the whole extraction fail (`none`),
matching C++11 `num_get` (observed: `"1e"`, `"1e+"` extract nothing, while
`strtod` would have backtracked to the mantissa). -/
def parseExpOpt (q : ℚ) (cs : List Char) : Option (ℚ × List Char) :=
  match cs with
  | [] => some (q, cs)
  | c :: rest =>
    if expChar c then
      match rest with
      | [] => none
      | s :: rest2 =>
        if s = '+' || s = '-' then
          let ds := rest2.takeWhile Char.isDigit
          if ds.isEmpty then none
          else some (applyExp q (s = '+') (digitsVal ds), rest2.dropWhile Char.isDigit)
        else
          let ds := rest.takeWhile Char.isDigit
          if ds.isEmpty then none
          else some (applyExp q true (digitsVal ds), rest.dropWhile Char.isDigit)
    else some (q, cs)

/-- The optional sign in front of the mantissa: returns whether the value
is negated, and the rest of the input. -/
def signSplit (cs : List Char) : Bool × List Char :=
  match cs with
  | [] => (false, cs)
  | c :: r => if c = '+' then (false, r) else if c = '-' then (true, r) else (false, cs)

/-- One `stream >> u` extraction of a `double`: skip whitespace, read an
optional sign, a mantissa and an optional exponent.  `none` models the
extraction setting `failbit` (no characters of a number could be read). -/
def extractDouble (cs : List Char) : Option (ℚ × List Char) :=
  let sgn := signSplit (cs.dropWhile isSpace)
  match parseUnsigned sgn.2 with
  | none => none
  | some (q, r1) =>
    match parseExpOpt q r1 with
    | none => none
    | some (q2, r2) => some (if sgn.1 then -q2 else q2, r2)

/-- Fuelled form of the inner `while(1) { stream >> u; if(!stream) break;
v.push_back(u); }` loop. -/
def extractAllF : Nat → List Char → List ℚ
  | 0, _ => []
  | fuel + 1, cs =>
    match extractDouble cs with
    | none => []
    | some (q, r) => q :: extractAllF fuel r

/-- All numbers extracted from a line by the inner `while(1)` loop, in
order; `cs.length + 1` units of fuel always suffice (`extractAll_eq`). -/
def extractAll (cs : List Char) : List ℚ :=
  extractAllF (cs.length + 1) cs

/-- `double sum_squares(double x, double y) { return x + y*y; }` -/
def sum_squares (x y : ℚ) : ℚ :=
  x + y * y

/-- The per-line body of `main`: parse the line's numbers into `v`; when
`v.size()` is nonzero, emit `accumulate(v.begin(), v.end(), 0.0,
sum_squares)`, otherwise emit nothing.  The returned list is the (zero or
one) values printed for this line. -/
def processLine (s : List Char) : List ℚ :=
  let v := extractAll s
  if v.length ≠ 0 then [v.foldl sum_squares 0] else []

/-- The delimiter test of `getline`: keep consuming while the character is
not a newline. -/
def notNL (c : Char) : Bool :=
  c ≠ '\n'

/-- The state of `cin`: the unread input together with the stream's
`eofbit` and `failbit` (`badbit` never arises for a string source). -/
structure IStream where
  buf : List Char
  eofbit : Bool
  failbit : Bool
deriving DecidableEq

/-- `getline(cin, s)`: a sentry on a non-good stream (here: `eofbit`
already set) sets `failbit` and leaves `s` unchanged; otherwise `s` is
erased and characters are extracted up to a newline (consumed, not stored)
or end of input.  Reaching end of input sets `eofbit`, and additionally
`failbit` when no character was extracted.  Returns the new stream state
and the new value of `s`. -/
def getline (st : IStream) (s : List Char) : IStream × List Char :=
  if st.failbit || st.eofbit then
    ({ st with failbit := true }, s)
  else
    let line := st.buf.takeWhile notNL
    let rest := st.buf.dropWhile notNL
    match rest with
    | c :: r =>
      if c = '\n' then ({ buf := r, eofbit := false, failbit := false }, line)
      else ({ buf := [], eofbit := true, failbit := line.isEmpty }, line)
    | [] => ({ buf := [], eofbit := true, failbit := line.isEmpty }, line)

/-- Termination measure for the `while (cin)` loop: each iteration either
consumes a newline-terminated line from the buffer, or sets `eofbit`, or
(on the final sentry failure) sets `failbit`. -/
def streamMeasure (st : IStream) : Nat :=
  2 * st.buf.length + (if st.eofbit then 0 else 1) + (if st.failbit then 0 else 1)

/-- Fuelled form of `main`'s `while (cin)` loop.  The loop body reads a
line into `s` (possibly leaving `s` unchanged when the `getline` sentry
fails), then runs the per-line processing on `s` unconditionally — exactly
as in the source, where the body continues after `getline` regardless of
success. -/
def mainLoopF : Nat → IStream → List Char → List ℚ
  | 0, _, _ => []
  | fuel + 1, st, s =>
    if st.failbit then []
    else
      let p := getline st s
      processLine p.2 ++ mainLoopF fuel p.1 p.2

/-- The `while (cin)` loop run to completion from a given stream state:
`streamMeasure st + 1` iterations always suffice (`mainLoop_eq`,
`mainExitF_eq`). -/
def mainLoop (st : IStream) (s : List Char) : List ℚ :=
  mainLoopF (streamMeasure st + 1) st s

/-- The values printed by `main` on the given standard input: the loop is
entered with a good stream and a default-constructed (empty) `s`. -/
def runMain (input : List Char) : List ℚ :=
  mainLoop { buf := input, eofbit := false, failbit := false } []

/-- Iteration-bounded run of `main` that also reports the exit status:
`some (outputs, 0)` when the loop's test fails within the given number of
iterations (after which `main` returns, with exit status `0`), `none` when
the iteration budget is exhausted first. -/
def mainExitF : Nat → IStream → List Char → Option (List ℚ × Nat)
  | 0, _, _ => none
  | fuel + 1, st, s =>
    if st.failbit then some ([], 0)
    else
      let p := getline st s
      (mainExitF fuel p.1 p.2).map fun out => (processLine p.2 ++ out.1, out.2)

/-- Fuelled splitting of the raw input into lines, mirroring the
successful-`getline` path: a line is the text up to the next newline or end
of input; the final fragment without a trailing newline is also a line. -/
def linesOfF : Nat → List Char → List (List Char)
  | 0, _ => []
  | fuel + 1, cs =>
    match cs with
    | [] => []
    | _ :: _ =>
      cs.takeWhile notNL ::
        linesOfF fuel ((cs.dropWhile notNL).drop 1)

/-- The lines of the input; `cs.length + 1` units of fuel always suffice
(`linesOf_eq`). -/
def linesOf (cs : List Char) : List (List Char) :=
  linesOfF (cs.length + 1) cs

/-- Newline-terminated inputs: a concatenation of lines, each free of
newline characters and terminated by one.  This is exactly `input = [] ∨
input.getLast = '\n'`, phrased as the induction the run lemmas use. -/
inductive NLTerm : List Char → Prop
  | nil : NLTerm []
  | line (l : List Char) (hl : '\n' ∉ l) (r : List Char) (hr : NLTerm r) :
      NLTerm (l ++ '\n' :: r)

/-! ### Output formatting

`cout << x` for a `double` with default stream flags prints in the `%g`
style with 6 significant digits: round the value to 6 significant decimal
digits, then use fixed notation when the decimal exponent `X` of the
rounded value satisfies `-4 ≤ X < 6` (stripping trailing fractional
zeros and a trailing point) and scientific notation `d.ddddde±XX`
otherwise.  All values the program prints are exact rationals in this
embedding, so rounding is exact decimal rounding (ties away from zero; a
tie can only arise from an input token with more than six significant
digits). -/

/-- The number of decimal digits of `n` (one digit for `0`). -/
def digits10 (n : Nat) : Nat :=
  (Nat.toDigits 10 n).length

/-- Floor of a nonnegative rational as a natural number. -/
def posFloor (q : ℚ) : Nat :=
  q.num.toNat / q.den

/-- Nearest natural number to a nonnegative rational, ties away from
zero. -/
def posRound (q : ℚ) : Nat :=
  (2 * q.num.toNat + q.den) / (2 * q.den)

/-- The decimal exponent of a positive rational `x`: the unique `e` with
`10 ^ e ≤ x < 10 ^ (e + 1)`. -/
def decExpP (x : ℚ) : Int :=
  if 1 ≤ x then (digits10 (posFloor x) : Int) - 1
  else if x.den ≤ x.num.toNat * 10 ^ (digits10 x.den - digits10 x.num.toNat) then
    -((digits10 x.den - digits10 x.num.toNat : Nat) : Int)
  else
    -(((digits10 x.den - digits10 x.num.toNat : Nat) : Int) + 1)

/-- `x * 10 ^ e` for an integer exponent. -/
def mulPow10 (x : ℚ) (e : Int) : ℚ :=
  if 0 ≤ e then x * (10 : ℚ) ^ e.toNat else x / (10 : ℚ) ^ (-e).toNat

/-- Strip trailing zeros of the fractional part and then a trailing
decimal point, as `%g` does.  Only called on strings containing a point. -/
def stripFrac (s : List Char) : List Char :=
  let r := s.reverse.dropWhile (fun c => c = '0')
  (match r with
   | c :: t => if c = '.' then t else r
   | [] => r).reverse

/-- Fixed-notation rendering of the 6 rounded significant digits `ds` with
decimal exponent `X` (requires `-4 ≤ X < 6`). -/
def fixedRepr (ds : List Char) (X : Int) : List Char :=
  if 0 ≤ X then
    let k := X.toNat + 1
    let ip := ds.take k
    let fp := ds.drop k
    if fp.isEmpty then ip else stripFrac (ip ++ '.' :: fp)
  else
    stripFrac ('0' :: '.' :: (List.replicate ((-X).toNat - 1) '0' ++ ds))

/-- Scientific-notation rendering `d.ddddde±XX` of the 6 rounded
significant digits `ds` with decimal exponent `X`; the exponent field has a
sign and at least two digits. -/
def sciRepr (ds : List Char) (X : Int) : List Char :=
  let mant :=
    match ds with
    | [] => ['0']
    | d :: rest =>
      let rest2 := (rest.reverse.dropWhile (fun c => c = '0')).reverse
      if rest2.isEmpty then [d] else d :: '.' :: rest2
  let ea := X.natAbs
  let eds := Nat.toDigits 10 ea
  let eds2 := if ea < 10 then '0' :: eds else eds
  mant ++ 'e' :: (if X < 0 then '-' else '+') :: eds2

/-- `cout << q` for a finite double value held exactly as a rational:
default `ios` formatting (`%g`, precision 6). -/
def fmtDouble (q : ℚ) : String :=
  if q.num = 0 then "0"
  else
    let x := if q.num < 0 then -q else q
    let X0 := decExpP x
    let scaled0 := posRound (mulPow10 x (5 - X0))
    let scaled := if scaled0 = 1000000 then 100000 else scaled0
    let X := if scaled0 = 1000000 then X0 + 1 else X0
    let ds := Nat.toDigits 10 scaled
    let body := if -4 ≤ X ∧ X < 6 then fixedRepr ds X else sciRepr ds X
    ⟨if q.num < 0 then '-' :: body else body⟩

/-- The exact text `main` writes to standard output: each emitted value
formatted by `operator<<` followed by `endl`. -/
def mainOutput (input : List Char) : String :=
  String.join ((runMain input).map fun q => fmtDouble q ++ "\n")

/-! ### Whitespace-separated numeric tokens -/

/-- A whitespace-separated line built from the given tokens, exactly as the
spec's data model describes an input line. -/
def joinTokens : List (List Char) → List Char
  | [] => []
  | [t] => t
  | t :: ts => t ++ ' ' :: joinTokens ts

/-- `t` is a valid decimal numeric token of value `v`: nonempty, free of
whitespace, and stream extraction consumes it entirely yielding `v`. -/
def NumToken (t : List Char) (v : ℚ) : Prop :=
  t ≠ [] ∧ (∀ c ∈ t, isSpace c = false) ∧ extractDouble t = some (v, [])

/-! ## Theorems -/

theorem length_dropWhile_le (p : α → Bool) (l : List α) :
    (l.dropWhile p).length ≤ l.length := by
  have h := congrArg List.length (List.takeWhile_append_dropWhile p l)
  simp only [List.length_append] at h
  omega

theorem parseUnsigned_length_lt {cs r : List Char} {q : ℚ}
    (h : parseUnsigned cs = some (q, r)) : r.length < cs.length := by
  unfold parseUnsigned at h
  have hlensplit := congrArg List.length (List.takeWhile_append_dropWhile Char.isDigit cs)
  simp only [List.length_append] at hlensplit
  cases hdw : cs.dropWhile Char.isDigit with
  | nil =>
    rw [hdw] at h hlensplit
    simp only [List.length_nil] at hlensplit
    simp only at h
    split at h
    · exact absurd h (by simp)
    · rename_i hne
      simp only [Option.some.injEq, Prod.mk.injEq] at h
      rw [← h.2]
      simp only [List.length_nil]
      have hne2 : cs.takeWhile Char.isDigit ≠ [] := by
        simpa [List.isEmpty_iff] using hne
      have := List.length_pos.mpr hne2
      omega
  | cons d r1 =>
    rw [hdw] at h hlensplit
    simp only [List.length_cons] at hlensplit
    simp only at h
    split at h
    · split at h
      · exact absurd h (by simp)
      · simp only [Option.some.injEq, Prod.mk.injEq] at h
        have : r.length ≤ r1.length := by
          rw [← h.2]
          exact length_dropWhile_le _ _
        omega
    · split at h
      · exact absurd h (by simp)
      · rename_i hdot hne
        simp only [Option.some.injEq, Prod.mk.injEq] at h
        rw [← h.2]
        simp only [List.length_cons]
        have hne2 : cs.takeWhile Char.isDigit ≠ [] := by
          simpa [List.isEmpty_iff] using hne
        have := List.length_pos.mpr hne2
        omega

theorem parseExpOpt_length_le {q q2 : ℚ} {cs r : List Char}
    (h : parseExpOpt q cs = some (q2, r)) : r.length ≤ cs.length := by
  unfold parseExpOpt at h
  cases cs with
  | nil =>
    simp only [Option.some.injEq, Prod.mk.injEq] at h
    rw [← h.2]
  | cons c rest =>
    simp only at h
    split at h
    · cases rest with
      | nil => exact absurd h (by simp)
      | cons s rest2 =>
        simp only at h
        split at h
        · split at h
          · exact absurd h (by simp)
          · simp only [Option.some.injEq, Prod.mk.injEq] at h
            rw [← h.2]
            have := length_dropWhile_le Char.isDigit rest2
            simp only [List.length_cons]
            omega
        · split at h
          · exact absurd h (by simp)
          · simp only [Option.some.injEq, Prod.mk.injEq] at h
            rw [← h.2]
            have := length_dropWhile_le Char.isDigit (s :: rest2)
            simp only [List.length_cons] at this ⊢
            omega
    · simp only [Option.some.injEq, Prod.mk.injEq] at h
      rw [← h.2]

theorem signSplit_length_le (cs : List Char) :
    (signSplit cs).2.length ≤ cs.length := by
  unfold signSplit
  cases cs with
  | nil => simp
  | cons c r =>
    simp only
    split
    · simp
    · split <;> simp

theorem extractDouble_length_lt {cs r : List Char} {q : ℚ}
    (h : extractDouble cs = some (q, r)) : r.length < cs.length := by
  simp only [extractDouble] at h
  have h1 : (cs.dropWhile isSpace).length ≤ cs.length := length_dropWhile_le _ _
  have h2 := signSplit_length_le (cs.dropWhile isSpace)
  cases hpu : parseUnsigned (signSplit (cs.dropWhile isSpace)).2 with
  | none => rw [hpu] at h; exact absurd h (by simp)
  | some p =>
    rw [hpu] at h
    obtain ⟨q1, r1⟩ := p
    simp only at h
    have hlt := parseUnsigned_length_lt hpu
    cases hpe : parseExpOpt q1 r1 with
    | none => rw [hpe] at h; exact absurd h (by simp)
    | some p2 =>
      rw [hpe] at h
      obtain ⟨q2, r2⟩ := p2
      have h3 := parseExpOpt_length_le hpe
      simp only [Option.some.injEq, Prod.mk.injEq] at h
      rw [← h.2]
      omega

theorem extractAllF_congr :
    ∀ {f f' : Nat} {cs : List Char}, cs.length < f → cs.length < f' →
      extractAllF f cs = extractAllF f' cs := by
  intro f
  induction f with
  | zero => intro f' cs h; omega
  | succ f ih =>
    intro f' cs h h'
    cases f' with
    | zero => omega
    | succ f' =>
      simp only [extractAllF]
      cases hed : extractDouble cs with
      | none => rfl
      | some p =>
        obtain ⟨q, r⟩ := p
        have hr := extractDouble_length_lt hed
        exact congrArg (List.cons q) (@ih f' r (by omega) (by omega))

/-- The inner extraction loop's defining equation: the fuelled embedding is
its fixpoint. -/
theorem extractAll_eq (cs : List Char) :
    extractAll cs =
      match extractDouble cs with
      | none => []
      | some (q, r) => q :: extractAll r := by
  unfold extractAll
  conv_lhs => rw [extractAllF]
  cases hed : extractDouble cs with
  | none => rfl
  | some p =>
    obtain ⟨q, r⟩ := p
    have hr := extractDouble_length_lt hed
    exact congrArg (List.cons q)
      (@extractAllF_congr cs.length (r.length + 1) r (by omega) (by omega))

theorem dropWhile_head_false {p : α → Bool} :
    ∀ {l : List α} {c : α} {r : List α}, l.dropWhile p = c :: r → p c = false := by
  intro l
  induction l with
  | nil => intro c r h; exact absurd h (by simp)
  | cons a t ih =>
    intro c r h
    rw [List.dropWhile_cons] at h
    split at h
    · exact ih h
    · rename_i hp
      cases h
      simpa using hp

/-- A `getline` on a stream with `failbit` or `eofbit` set: the sentry
fails, `failbit` is set, `s` is untouched. -/
theorem getline_sentry_fail {buf : List Char} {eo fb : Bool} (s : List Char)
    (h : (fb || eo) = true) :
    getline ⟨buf, eo, fb⟩ s = (⟨buf, eo, true⟩, s) := by
  unfold getline
  simp [h]

/-- A `getline` on a good stream whose buffer contains a newline: the line
before it is extracted, the newline is consumed, flags stay clear. -/
theorem getline_good_line {buf r : List Char} (s : List Char)
    (hdw : buf.dropWhile notNL = '\n' :: r) :
    getline ⟨buf, false, false⟩ s =
      (⟨r, false, false⟩, buf.takeWhile notNL) := by
  unfold getline
  simp [hdw]

/-- A `getline` on a good stream whose buffer has no newline: the whole
buffer is extracted, `eofbit` is set, and `failbit` is set exactly when
nothing was extracted. -/
theorem getline_good_eof {buf : List Char} (s : List Char)
    (hdw : buf.dropWhile notNL = []) :
    getline ⟨buf, false, false⟩ s =
      (⟨[], true, (buf.takeWhile notNL).isEmpty⟩,
        buf.takeWhile notNL) := by
  unfold getline
  simp [hdw]

theorem getline_measure_lt (st : IStream) (s : List Char) (h : st.failbit = false) :
    streamMeasure (getline st s).1 < streamMeasure st := by
  obtain ⟨buf, eo, fb⟩ := st
  simp only at h
  subst h
  cases eo with
  | true =>
    rw [getline_sentry_fail s (by simp)]
    simp [streamMeasure]
  | false =>
    have hlen := length_dropWhile_le notNL buf
    cases hdw : buf.dropWhile notNL with
    | nil =>
      rw [getline_good_eof s hdw]
      simp only [streamMeasure]
      cases (buf.takeWhile notNL).isEmpty <;> simp
    | cons c r =>
      have hc : c = '\n' := by
        have := dropWhile_head_false hdw
        simpa [notNL] using this
      subst hc
      rw [getline_good_line s hdw]
      rw [hdw] at hlen
      simp only [List.length_cons] at hlen
      simp only [streamMeasure, Bool.false_eq_true, if_false]
      omega

theorem mainLoopF_congr :
    ∀ {f f' : Nat} {st : IStream} {s : List Char}, streamMeasure st < f →
      streamMeasure st < f' → mainLoopF f st s = mainLoopF f' st s := by
  intro f
  induction f with
  | zero => intro f' st s h; omega
  | succ f ih =>
    intro f' st s h h'
    cases f' with
    | zero => omega
    | succ f' =>
      simp only [mainLoopF]
      cases hfb : st.failbit with
      | true => simp
      | false =>
        simp only [Bool.false_eq_true, if_false]
        have hm := getline_measure_lt st s hfb
        exact congrArg (processLine (getline st s).2 ++ ·)
          (@ih f' (getline st s).1 (getline st s).2 (by omega) (by omega))

/-- The `while (cin)` loop's defining equation: the fuelled embedding is
its fixpoint. -/
theorem mainLoop_eq (st : IStream) (s : List Char) :
    mainLoop st s =
      if st.failbit then []
      else processLine (getline st s).2 ++ mainLoop (getline st s).1 (getline st s).2 := by
  unfold mainLoop
  conv_lhs => rw [mainLoopF]
  cases hfb : st.failbit with
  | true => simp
  | false =>
    simp only [Bool.false_eq_true, if_false]
    have hm := getline_measure_lt st s hfb
    exact congrArg (processLine (getline st s).2 ++ ·)
      (mainLoopF_congr (by omega) (by omega))

theorem mainExitF_eq :
    ∀ {f : Nat} {st : IStream} {s : List Char}, streamMeasure st < f →
      mainExitF f st s = some (mainLoop st s, 0) := by
  intro f
  induction f with
  | zero => intro st s h; omega
  | succ f ih =>
    intro st s h
    rw [mainLoop_eq]
    simp only [mainExitF]
    cases hfb : st.failbit with
    | true => simp
    | false =>
      simp only [Bool.false_eq_true, if_false]
      have hm := getline_measure_lt st s hfb
      rw [@ih (getline st s).1 (getline st s).2 (by omega)]
      simp

theorem linesOfF_succ (f : Nat) (a : Char) (l : List Char) :
    linesOfF (f + 1) (a :: l) =
      (a :: l).takeWhile notNL :: linesOfF f (((a :: l).dropWhile notNL).drop 1) := rfl

theorem linesOfF_congr :
    ∀ {f f' : Nat} {cs : List Char}, cs.length < f → cs.length < f' →
      linesOfF f cs = linesOfF f' cs := by
  intro f
  induction f with
  | zero => intro f' cs h; omega
  | succ f ih =>
    intro f' cs h h'
    cases f' with
    | zero => omega
    | succ f' =>
      simp only [linesOfF]
      cases cs with
      | nil => rfl
      | cons a l =>
        have hlen := length_dropWhile_le notNL (a :: l)
        simp only [List.length_cons] at hlen h h'
        refine congrArg _ (ih ?_ ?_) <;>
          · simp only [List.length_drop]
            omega

/-- The line-splitting function's defining equation. -/
theorem linesOf_eq (cs : List Char) :
    linesOf cs =
      match cs with
      | [] => []
      | _ :: _ =>
        cs.takeWhile notNL ::
          linesOf ((cs.dropWhile notNL).drop 1) := by
  cases cs with
  | nil => rfl
  | cons a l =>
    dsimp only
    conv_lhs => rw [linesOf]
    rw [show (a :: l).length + 1 = l.length + 1 + 1 from rfl]
    rw [linesOfF_succ]
    unfold linesOf
    have hlen := length_dropWhile_le notNL (a :: l)
    simp only [List.length_cons] at hlen
    refine congrArg _ (linesOfF_congr ?_ ?_) <;>
      · simp only [List.length_drop, List.length_cons]
        omega

/-! ### Continuation lemmas for stream extraction

A successful extraction that consumed its whole input still succeeds, with
the same value, when further input starting with a whitespace character
follows; and extraction ignores leading whitespace.  These are the facts
that let per-token parsing compose into per-line parsing. -/

theorem takeWhile_append_stop {p : α → Bool} {xs ys : List α} (h : xs.dropWhile p ≠ []) :
    (xs ++ ys).takeWhile p = xs.takeWhile p := by
  rw [List.takeWhile_append]
  have hlen := congrArg List.length (List.takeWhile_append_dropWhile p xs)
  simp only [List.length_append] at hlen
  have hpos : 0 < (xs.dropWhile p).length := List.length_pos.mpr h
  rw [if_neg (by omega)]

theorem dropWhile_append_stop {p : α → Bool} {xs ys : List α} (h : xs.dropWhile p ≠ []) :
    (xs ++ ys).dropWhile p = xs.dropWhile p ++ ys := by
  rw [List.dropWhile_append, if_neg]
  simpa [List.isEmpty_iff] using h

theorem takeWhile_append_all {p : α → Bool} {xs : List α} {c : α} {ys : List α}
    (h : ∀ a ∈ xs, p a) (hc : p c = false) :
    (xs ++ c :: ys).takeWhile p = xs := by
  rw [List.takeWhile_append_of_pos h, List.takeWhile_cons_of_neg (by simp [hc])]
  simp

theorem dropWhile_append_all {p : α → Bool} {xs : List α} {c : α} {ys : List α}
    (h : ∀ a ∈ xs, p a) (hc : p c = false) :
    (xs ++ c :: ys).dropWhile p = c :: ys := by
  rw [List.dropWhile_append_of_pos h, List.dropWhile_cons_of_neg (by simp [hc])]

theorem takeWhile_eq_self_of {p : α → Bool} {l : List α} (h : l.dropWhile p = []) :
    l.takeWhile p = l := by
  have h2 := List.takeWhile_append_dropWhile p l
  rwa [h, List.append_nil] at h2

/-- The character classes a whitespace character avoids: everything the
number grammar could consume. -/
theorem isSpace_props {c : Char} (hc : isSpace c = true) :
    Char.isDigit c = false ∧ c ≠ '.' ∧ expChar c = false ∧ c ≠ '+' ∧ c ≠ '-' := by
  simp only [isSpace, Bool.or_eq_true, decide_eq_true_eq] at hc
  rcases hc with ((((h | h) | h) | h) | h) | h <;> subst h <;> decide

theorem parseUnsigned_eq_nil {cs : List Char}
    (hdw : cs.dropWhile Char.isDigit = []) :
    parseUnsigned cs =
      if (cs.takeWhile Char.isDigit).isEmpty then none
      else some ((digitsVal (cs.takeWhile Char.isDigit) : ℚ), []) := by
  unfold parseUnsigned
  rw [hdw]

theorem parseUnsigned_eq_dot {cs r2 : List Char}
    (hdw : cs.dropWhile Char.isDigit = '.' :: r2) :
    parseUnsigned cs =
      if (cs.takeWhile Char.isDigit).isEmpty && (r2.takeWhile Char.isDigit).isEmpty
      then none
      else some ((digitsVal (cs.takeWhile Char.isDigit) : ℚ) +
        (digitsVal (r2.takeWhile Char.isDigit) : ℚ) /
          (10 : ℚ) ^ (r2.takeWhile Char.isDigit).length,
        r2.dropWhile Char.isDigit) := by
  unfold parseUnsigned
  rw [hdw]
  dsimp only
  rw [if_pos rfl]

theorem parseUnsigned_eq_other {cs r2 : List Char} {d : Char}
    (hdw : cs.dropWhile Char.isDigit = d :: r2) (hd : d ≠ '.') :
    parseUnsigned cs =
      if (cs.takeWhile Char.isDigit).isEmpty then none
      else some ((digitsVal (cs.takeWhile Char.isDigit) : ℚ), d :: r2) := by
  unfold parseUnsigned
  rw [hdw]
  dsimp only
  rw [if_neg hd]

theorem parseUnsigned_append {cs r1 : List Char} {q : ℚ} {c : Char} {t : List Char}
    (h : parseUnsigned cs = some (q, r1)) (hcd : Char.isDigit c = false)
    (hcdot : c ≠ '.') :
    parseUnsigned (cs ++ c :: t) = some (q, r1 ++ c :: t) := by
  cases hdw : cs.dropWhile Char.isDigit with
  | nil =>
    have hall : ∀ a ∈ cs, Char.isDigit a := List.dropWhile_eq_nil_iff.mp hdw
    have htw : cs.takeWhile Char.isDigit = cs := takeWhile_eq_self_of hdw
    rw [parseUnsigned_eq_nil hdw, htw] at h
    rw [parseUnsigned_eq_other (dropWhile_append_all hall hcd) hcdot,
      takeWhile_append_all hall hcd]
    by_cases hne : cs.isEmpty
    · rw [if_pos hne] at h; exact absurd h (by simp)
    · rw [if_neg hne] at h
      rw [if_neg hne]
      simp only [Option.some.injEq, Prod.mk.injEq] at h ⊢
      exact ⟨h.1, by rw [← h.2]; simp⟩
  | cons d rest =>
    have hstop : cs.dropWhile Char.isDigit ≠ [] := by rw [hdw]; simp
    have htw2 : (cs ++ c :: t).takeWhile Char.isDigit = cs.takeWhile Char.isDigit :=
      takeWhile_append_stop hstop
    have hdw2 : (cs ++ c :: t).dropWhile Char.isDigit = d :: (rest ++ c :: t) := by
      rw [dropWhile_append_stop hstop, hdw, List.cons_append]
    by_cases hd : d = '.'
    · subst hd
      rw [parseUnsigned_eq_dot hdw] at h
      rw [parseUnsigned_eq_dot hdw2, htw2]
      cases hdwr : rest.dropWhile Char.isDigit with
      | nil =>
        have hallr : ∀ a ∈ rest, Char.isDigit a := List.dropWhile_eq_nil_iff.mp hdwr
        have htwr : rest.takeWhile Char.isDigit = rest := takeWhile_eq_self_of hdwr
        rw [hdwr] at h
        rw [takeWhile_append_all hallr hcd, dropWhile_append_all hallr hcd]
        rw [htwr] at h
        by_cases hcond : (cs.takeWhile Char.isDigit).isEmpty && rest.isEmpty
        · rw [if_pos hcond] at h; exact absurd h (by simp)
        · rw [if_neg hcond] at h
          rw [if_neg hcond]
          simp only [Option.some.injEq, Prod.mk.injEq] at h ⊢
          exact ⟨h.1, by rw [← h.2]; simp⟩
      | cons d2 rest2 =>
        have hstopr : rest.dropWhile Char.isDigit ≠ [] := by rw [hdwr]; simp
        rw [takeWhile_append_stop hstopr, dropWhile_append_stop hstopr]
        by_cases hcond :
            (cs.takeWhile Char.isDigit).isEmpty && (rest.takeWhile Char.isDigit).isEmpty
        · rw [if_pos hcond] at h; exact absurd h (by simp)
        · rw [if_neg hcond] at h
          rw [if_neg hcond]
          simp only [Option.some.injEq, Prod.mk.injEq] at h ⊢
          exact ⟨h.1, by rw [← h.2]⟩
    · rw [parseUnsigned_eq_other hdw hd] at h
      rw [parseUnsigned_eq_other hdw2 hd, htw2]
      by_cases hne : (cs.takeWhile Char.isDigit).isEmpty
      · rw [if_pos hne] at h; exact absurd h (by simp)
      · rw [if_neg hne] at h
        rw [if_neg hne]
        simp only [Option.some.injEq, Prod.mk.injEq] at h ⊢
        exact ⟨h.1, by rw [← h.2]; simp⟩

theorem parseExpOpt_append {q q2 : ℚ} {cs : List Char} {c : Char} {t : List Char}
    (h : parseExpOpt q cs = some (q2, []))
    (hce : expChar c = false) (hcd : Char.isDigit c = false) :
    parseExpOpt q (cs ++ c :: t) = some (q2, c :: t) := by
  cases cs with
  | nil =>
    unfold parseExpOpt at h
    simp only [Option.some.injEq, Prod.mk.injEq] at h
    unfold parseExpOpt
    simp only [List.nil_append]
    rw [if_neg (by simp [hce]), h.1]
  | cons e rest =>
    unfold parseExpOpt at h ⊢
    rw [List.cons_append]
    dsimp only at h ⊢
    by_cases he : expChar e
    · rw [if_pos he] at h ⊢
      cases rest with
      | nil => exact absurd h (by simp)
      | cons s rest2 =>
        rw [List.cons_append]
        dsimp only at h ⊢
        by_cases hs : s = '+' || s = '-'
        · rw [if_pos hs] at h ⊢
          by_cases hds : (rest2.takeWhile Char.isDigit).isEmpty
          · rw [if_pos hds] at h
            exact absurd h (by simp)
          · rw [if_neg hds] at h
            simp only [Option.some.injEq, Prod.mk.injEq] at h
            have hdwr : rest2.dropWhile Char.isDigit = [] := h.2
            have hallr : ∀ a ∈ rest2, Char.isDigit a := List.dropWhile_eq_nil_iff.mp hdwr
            have htwr : rest2.takeWhile Char.isDigit = rest2 := takeWhile_eq_self_of hdwr
            rw [takeWhile_append_all hallr hcd, dropWhile_append_all hallr hcd]
            rw [htwr] at hds h
            rw [if_neg hds, h.1]
        · rw [if_neg hs] at h ⊢
          by_cases hds : ((s :: rest2).takeWhile Char.isDigit).isEmpty
          · rw [if_pos hds] at h
            exact absurd h (by simp)
          · rw [if_neg hds] at h
            simp only [Option.some.injEq, Prod.mk.injEq] at h
            have hdwr : (s :: rest2).dropWhile Char.isDigit = [] := h.2
            have hallr : ∀ a ∈ s :: rest2, Char.isDigit a := List.dropWhile_eq_nil_iff.mp hdwr
            have htwr : (s :: rest2).takeWhile Char.isDigit = s :: rest2 :=
              takeWhile_eq_self_of hdwr
            have hs2 : Char.isDigit s := hallr s (by simp)
            have hallr2 : ∀ a ∈ rest2, Char.isDigit a := fun a ha => hallr a (by simp [ha])
            rw [List.takeWhile_cons_of_pos hs2, List.dropWhile_cons_of_pos hs2]
            rw [takeWhile_append_all hallr2 hcd, dropWhile_append_all hallr2 hcd]
            rw [htwr] at hds h
            rw [if_neg (by simp), h.1]
    · rw [if_neg he] at h ⊢
      simp only [Option.some.injEq, Prod.mk.injEq] at h
      exact absurd h.2 (by simp)

theorem signSplit_append {cs z : List Char} (h : cs ≠ []) :
    signSplit (cs ++ z) = ((signSplit cs).1, (signSplit cs).2 ++ z) := by
  cases cs with
  | nil => exact absurd rfl h
  | cons c r =>
    unfold signSplit
    rw [List.cons_append]
    dsimp only
    by_cases hp : c = '+'
    · rw [if_pos hp, if_pos hp]
    · rw [if_neg hp, if_neg hp]
      by_cases hm : c = '-'
      · rw [if_pos hm, if_pos hm]
      · rw [if_neg hm, if_neg hm, List.cons_append]

/-- A whole-token extraction still extracts the same value when the token
is followed by whitespace-led further input, leaving that input intact:
the key composition fact of the line grammar. -/
theorem extractDouble_closed_append {v : ℚ} {tok : List Char} {c : Char} {u : List Char}
    (h : extractDouble tok = some (v, [])) (hc : isSpace c = true) :
    extractDouble (tok ++ c :: u) = some (v, c :: u) := by
  obtain ⟨hcd, hcdot, hce, hcp, hcm⟩ := isSpace_props hc
  unfold extractDouble at h ⊢
  have hw : tok.dropWhile isSpace ≠ [] := by
    intro hnil
    rw [hnil] at h
    simp [signSplit, parseUnsigned] at h
  rw [dropWhile_append_stop hw, signSplit_append hw]
  dsimp only at h ⊢
  cases hpu : parseUnsigned (signSplit (tok.dropWhile isSpace)).2 with
  | none => rw [hpu] at h; exact absurd h (by simp)
  | some p =>
    rw [hpu] at h
    obtain ⟨q, r1⟩ := p
    dsimp only at h ⊢
    cases hpe : parseExpOpt q r1 with
    | none => rw [hpe] at h; exact absurd h (by simp)
    | some p2 =>
      rw [hpe] at h
      obtain ⟨q2, r2⟩ := p2
      dsimp only at h
      simp only [Option.some.injEq, Prod.mk.injEq] at h
      have hr2 : r2 = [] := h.2
      subst hr2
      rw [parseUnsigned_append hpu hcd hcdot]
      dsimp only
      rw [parseExpOpt_append hpe hce hcd]
      dsimp only
      rw [h.1]

/-- Extraction skips leading whitespace. -/
theorem extractDouble_cons_space {c : Char} {x : List Char} (hc : isSpace c = true) :
    extractDouble (c :: x) = extractDouble x := by
  unfold extractDouble
  rw [List.dropWhile_cons_of_pos hc]

theorem extractAll_of_none {cs : List Char} (h : extractDouble cs = none) :
    extractAll cs = [] := by
  rw [extractAll_eq, h]

theorem extractAll_of_some {cs r : List Char} {v : ℚ} (h : extractDouble cs = some (v, r)) :
    extractAll cs = v :: extractAll r := by
  rw [extractAll_eq, h]

theorem extractAll_nil : extractAll [] = [] := rfl

theorem extractAll_cons_space {c : Char} {x : List Char} (hc : isSpace c = true) :
    extractAll (c :: x) = extractAll x := by
  rw [extractAll_eq, extractDouble_cons_space hc, ← extractAll_eq]

/-- The numbers extracted from a line made of valid tokens followed by a
remainder that begins with whitespace (or is empty) are exactly the token
values followed by whatever the remainder yields. -/
theorem extractAll_joinTokens {ts : List (List Char)} {vs : List ℚ}
    (h : List.Forall₂ NumToken ts vs) :
    ∀ rest : List Char, (rest = [] ∨ ∃ u, rest = ' ' :: u) →
      extractAll (joinTokens ts ++ rest) = vs ++ extractAll rest := by
  induction h with
  | nil => intro rest _; simp [joinTokens]
  | cons ht hts ih =>
    rename_i t v ts' vs'
    intro rest hrest
    obtain ⟨-, -, hex⟩ := ht
    cases hts with
    | nil =>
      simp only [joinTokens]
      rcases hrest with rfl | ⟨u, rfl⟩
      · rw [List.append_nil, extractAll_of_some hex, extractAll_nil]
        rfl
      · rw [extractAll_of_some (extractDouble_closed_append hex (by decide))]
        simp
    | cons ht2 hts2 =>
      rename_i t2 v2 ts2 vs2
      show extractAll ((t ++ ' ' :: joinTokens (t2 :: ts2)) ++ rest) = _
      rw [List.append_assoc, List.cons_append]
      rw [extractAll_of_some (extractDouble_closed_append hex (by decide))]
      rw [extractAll_cons_space (by decide)]
      rw [ih rest hrest]
      simp

/-! ### Per-line and whole-run lemmas -/

theorem processLine_of_none {s : List Char} (h : extractAll s = []) :
    processLine s = [] := by
  unfold processLine
  rw [h]
  simp

theorem processLine_of_some {s : List Char} {vs : List ℚ}
    (h : extractAll s = vs) (hne : vs ≠ []) :
    processLine s = [vs.foldl sum_squares 0] := by
  unfold processLine
  rw [h, if_pos (by simpa [List.length_eq_zero] using hne)]

theorem processLine_nil : processLine [] = [] :=
  processLine_of_none extractAll_nil

theorem processLine_length_le (s : List Char) : (processLine s).length ≤ 1 := by
  unfold processLine
  dsimp only
  split <;> simp

theorem notNL_all {l : List Char} (hl : '\n' ∉ l) : ∀ c ∈ l, notNL c = true := by
  intro c hcl
  simp only [notNL, decide_eq_true_eq]
  intro hceq
  exact hl (hceq ▸ hcl)

theorem line_split_notNL {l : List Char} (hl : '\n' ∉ l) (rest : List Char) :
    (l ++ '\n' :: rest).takeWhile notNL = l ∧
      (l ++ '\n' :: rest).dropWhile notNL = '\n' :: rest :=
  ⟨takeWhile_append_all (notNL_all hl) (by decide),
    dropWhile_append_all (notNL_all hl) (by decide)⟩

theorem getline_good_s_irrel (buf : List Char) (s s' : List Char) :
    getline ⟨buf, false, false⟩ s = getline ⟨buf, false, false⟩ s' := by
  cases hdw : buf.dropWhile notNL with
  | nil => rw [getline_good_eof s hdw, getline_good_eof s' hdw]
  | cons c r =>
    have hc : c = '\n' := by
      have h2 := dropWhile_head_false hdw
      simpa [notNL] using h2
    subst hc
    rw [getline_good_line s hdw, getline_good_line s' hdw]

theorem mainLoop_good_s_irrel (buf : List Char) (s s' : List Char) :
    mainLoop ⟨buf, false, false⟩ s = mainLoop ⟨buf, false, false⟩ s' := by
  conv_lhs => rw [mainLoop_eq]
  conv_rhs => rw [mainLoop_eq]
  rw [getline_good_s_irrel buf s s']

theorem mainLoop_fail (st : IStream) (s : List Char) (h : st.failbit = true) :
    mainLoop st s = [] := by
  rw [mainLoop_eq, if_pos h]

theorem mainLoop_nil_good (s : List Char) : mainLoop ⟨[], false, false⟩ s = [] := by
  rw [mainLoop_eq, if_neg (by simp),
    getline_good_eof s (by simp : ([] : List Char).dropWhile notNL = [])]
  dsimp only
  simp only [List.takeWhile_nil, List.isEmpty_nil]
  rw [processLine_nil, mainLoop_fail _ _ (by simp)]
  rfl

theorem mainLoop_line {l : List Char} (hl : '\n' ∉ l) (r s : List Char) :
    mainLoop ⟨l ++ '\n' :: r, false, false⟩ s =
      processLine l ++ mainLoop ⟨r, false, false⟩ l := by
  obtain ⟨htw, hdw⟩ := line_split_notNL hl r
  rw [mainLoop_eq, if_neg (by simp), getline_good_line s hdw]
  dsimp only
  rw [htw]

theorem mainLoop_last {l : List Char} (hl : '\n' ∉ l) (hne : l ≠ []) (s : List Char) :
    mainLoop ⟨l, false, false⟩ s = processLine l ++ processLine l := by
  have hdw : l.dropWhile notNL = [] := List.dropWhile_eq_nil_iff.mpr (notNL_all hl)
  have htw : l.takeWhile notNL = l := takeWhile_eq_self_of hdw
  have hie : l.isEmpty = false := by simp [List.isEmpty_iff, hne]
  rw [mainLoop_eq, if_neg (by simp), getline_good_eof s hdw]
  dsimp only
  rw [htw, hie]
  rw [mainLoop_eq, if_neg (by simp), getline_sentry_fail l (by simp)]
  dsimp only
  rw [mainLoop_fail _ _ (by simp)]
  simp

theorem linesOf_cons_form {cs : List Char} (h : cs ≠ []) :
    linesOf cs = cs.takeWhile notNL :: linesOf ((cs.dropWhile notNL).drop 1) := by
  have h2 := linesOf_eq cs
  cases cs with
  | nil => exact absurd rfl h
  | cons a l => exact h2

theorem linesOf_line {l : List Char} (hl : '\n' ∉ l) (r : List Char) :
    linesOf (l ++ '\n' :: r) = l :: linesOf r := by
  obtain ⟨htw, hdw⟩ := line_split_notNL hl r
  rw [linesOf_cons_form (by simp), htw, hdw]
  simp

theorem linesOf_single {l : List Char} (hl : '\n' ∉ l) (hne : l ≠ []) :
    linesOf l = [l] := by
  have hdw : l.dropWhile notNL = [] := List.dropWhile_eq_nil_iff.mpr (notNL_all hl)
  have htw : l.takeWhile notNL = l := takeWhile_eq_self_of hdw
  rw [linesOf_cons_form hne, htw, hdw]
  rfl

/-- The run on a newline-terminated prefix followed by anything: the prefix
contributes its per-line outputs, then the loop continues on the remainder
with clear flags. -/
theorem mainLoop_pre {pre : List Char} (h : NLTerm pre) :
    ∀ tail s, mainLoop ⟨pre ++ tail, false, false⟩ s =
      (linesOf pre).flatMap processLine ++ mainLoop ⟨tail, false, false⟩ s := by
  induction h with
  | nil => intro tail s; rfl
  | line l hl r hr ih =>
    intro tail s
    rw [List.append_assoc, List.cons_append, mainLoop_line hl (r ++ tail) s,
      ih tail l, linesOf_line hl, mainLoop_good_s_irrel tail l s]
    simp [List.append_assoc]

/-- On a newline-terminated input the process's outputs are exactly the
concatenation of the per-line outputs, in order. -/
theorem runMain_NLTerm {cs : List Char} (h : NLTerm cs) :
    runMain cs = (linesOf cs).flatMap processLine := by
  have h2 := mainLoop_pre h [] []
  rw [List.append_nil] at h2
  unfold runMain
  rw [h2, mainLoop_nil_good]
  simp

/-- The run on a newline-terminated prefix followed by a final line with no
terminator: the final line's result is emitted twice — once by the
successful `getline` that hits end of file, and once more by the failed
`getline` whose sentry leaves `s` holding the same line. -/
theorem runMain_with_last {pre last : List Char} (h : NLTerm pre)
    (hl : '\n' ∉ last) (hne : last ≠ []) :
    runMain (pre ++ last) =
      (linesOf pre).flatMap processLine ++ (processLine last ++ processLine last) := by
  unfold runMain
  rw [mainLoop_pre h last [], mainLoop_last hl hne]

theorem flatMap_processLine_eq_filter (lines : List (List Char)) :
    lines.flatMap processLine =
      (lines.filter fun l => !(extractAll l).isEmpty).map
        fun l => (extractAll l).foldl sum_squares 0 := by
  induction lines with
  | nil => rfl
  | cons l ls ih =>
    rw [List.flatMap_cons, ih]
    by_cases hl : (extractAll l).isEmpty
    · rw [processLine_of_none (by simpa [List.isEmpty_iff] using hl)]
      rw [List.filter_cons_of_neg (by simp [hl])]
      rfl
    · rw [processLine_of_some rfl (by simpa [List.isEmpty_iff] using hl)]
      rw [List.filter_cons_of_pos (by simp [hl])]
      rfl

theorem forall₂_tokens_ne_nil {ts : List (List Char)} {vs : List ℚ}
    (h : List.Forall₂ NumToken ts vs) (hne : ts ≠ []) : vs ≠ [] := by
  intro hv
  subst hv
  cases h
  exact hne rfl

theorem joinTokens_no_newline {ts : List (List Char)} {vs : List ℚ}
    (h : List.Forall₂ NumToken ts vs) : '\n' ∉ joinTokens ts := by
  induction h with
  | nil => simp [joinTokens]
  | cons ht hts ih =>
    rename_i t v ts' vs'
    obtain ⟨-, hsp, -⟩ := ht
    cases hts with
    | nil =>
      show '\n' ∉ joinTokens [t]
      simp only [joinTokens]
      intro hmem
      have h2 := hsp '\n' hmem
      exact absurd h2 (by decide)
    | cons ht2 hts2 =>
      rename_i t2 v2 ts2 vs2
      show '\n' ∉ t ++ ' ' :: joinTokens (t2 :: ts2)
      simp only [List.mem_append, List.mem_cons, not_or]
      refine ⟨?_, by decide, ?_⟩
      · intro hmem
        exact absurd (hsp '\n' hmem) (by decide)
      · exact ih

theorem extractAll_joinTokens_closed {ts : List (List Char)} {vs : List ℚ}
    (h : List.Forall₂ NumToken ts vs) :
    extractAll (joinTokens ts) = vs := by
  have h2 := extractAll_joinTokens h [] (Or.inl rfl)
  rwa [List.append_nil, extractAll_nil, List.append_nil] at h2

theorem flatMap_processLine_length_le (lines : List (List Char)) :
    (lines.flatMap processLine).length ≤ lines.length := by
  induction lines with
  | nil => simp
  | cons l ls ih =>
    rw [List.flatMap_cons]
    simp only [List.length_append, List.length_cons]
    have h2 := processLine_length_le l
    omega

/-! ### The claims -/

/-- C1: for every input line consisting entirely of valid decimal numeric
tokens `v_1 .. v_n` with `n ≥ 1`, the filter emits exactly one output line
whose value is the left fold of `combine(acc, v) = acc + v²` over the
parsed numbers seeded at zero — the sum of squares of the tokens.  Stated
both for the per-line transformation and for a whole run on that single
(newline-terminated) line. -/
theorem claim1_sum_of_squares {ts : List (List Char)} {vs : List ℚ}
    (h : List.Forall₂ NumToken ts vs) (hne : ts ≠ []) :
    processLine (joinTokens ts) = [vs.foldl sum_squares 0] ∧
      runMain (joinTokens ts ++ ['\n']) = [vs.foldl sum_squares 0] := by
  have hvals := extractAll_joinTokens_closed h
  have hvne := forall₂_tokens_ne_nil h hne
  have hpl := processLine_of_some hvals hvne
  refine ⟨hpl, ?_⟩
  have hterm : NLTerm (joinTokens ts ++ ['\n']) :=
    NLTerm.line (joinTokens ts) (joinTokens_no_newline h) [] NLTerm.nil
  rw [runMain_NLTerm hterm, linesOf_line (joinTokens_no_newline h),
    List.flatMap_cons, hpl]
  rfl

/-- C2 amended: extraction is character-stream based, not token based.  A
line of wholly-numeric tokens followed by a remainder from which no number
can be extracted yields the sum of squares of those tokens, the remainder
contributing nothing; but a non-numeric token that merely begins with a
valid number (such as `2abc`) contributes that numeric prefix's value
before parsing stops, so the token-level reading of the claim fails. -/
theorem claim2_numeric_prefix_amended {ts : List (List Char)} {vs : List ℚ}
    (h : List.Forall₂ NumToken ts vs) (hne : ts ≠ []) {trail : List Char}
    (hfail : extractDouble trail = none) :
    processLine (joinTokens ts ++ ' ' :: trail) = [vs.foldl sum_squares 0] := by
  have hext := extractAll_joinTokens h (' ' :: trail) (Or.inr ⟨trail, rfl⟩)
  rw [extractAll_cons_space (by decide), extractAll_of_none hfail,
    List.append_nil] at hext
  exact processLine_of_some hext (forall₂_tokens_ne_nil h hne)

/-- C3: a line from which zero numbers are parsed produces no output, and
the whole run on such a (single-line) input emits nothing and still
reaches the normal exit with status 0 — malformed input never aborts the
process. -/
theorem claim3_no_output_no_error {line : List Char}
    (hparse : extractAll line = []) (hnl : '\n' ∉ line) :
    processLine line = [] ∧ runMain line = [] ∧
      mainExitF (streamMeasure ⟨line, false, false⟩ + 1) ⟨line, false, false⟩ [] =
        some ([], 0) := by
  have hpl := processLine_of_none hparse
  have hrun : runMain line = [] := by
    cases hline : line with
    | nil => exact mainLoop_nil_good []
    | cons a l =>
      rw [← hline]
      unfold runMain
      rw [mainLoop_last hnl (by rw [hline]; simp) [], hpl]
      rfl
  refine ⟨hpl, hrun, ?_⟩
  rw [mainExitF_eq (Nat.lt_succ_self _)]
  unfold runMain at hrun
  rw [hrun]

/-- C4 amended: on a newline-terminated input the outputs are exactly, and
in order, one line per input line holding at least one parseable number;
in particular the output line count equals the count of such input lines.
(As stated over all finite inputs the claim fails: a final parseable line
without a trailing newline is emitted twice, see the counterexample.) -/
theorem claim4_output_count_amended {input : List Char} (h : NLTerm input) :
    runMain input =
      ((linesOf input).filter fun l => !(extractAll l).isEmpty).map
        (fun l => (extractAll l).foldl sum_squares 0) ∧
      (runMain input).length =
        ((linesOf input).filter fun l => !(extractAll l).isEmpty).length := by
  have h1 := runMain_NLTerm h
  rw [flatMap_processLine_eq_filter] at h1
  exact ⟨h1, by rw [h1, List.length_map]⟩

/-- C6: on every finite input the `while (cin)` loop reaches its negative
test within `streamMeasure + 1` iterations — the filter terminates — and
`main` then returns normally with exit status 0, its outputs being exactly
the values of the completed run (nothing is emitted after end of input). -/
theorem claim6_terminates_exit_zero (input : List Char) :
    mainExitF (streamMeasure ⟨input, false, false⟩ + 1) ⟨input, false, false⟩ [] =
      some (runMain input, 0) :=
  mainExitF_eq (Nat.lt_succ_self _)

/-- C7: the filter is deterministic — the embedding is a pure function of
the input stream (the source consults no clock, randomness, environment or
other state), so equal inputs give byte-identical outputs. -/
theorem claim7_deterministic (i1 i2 : List Char) (h : i1 = i2) :
    runMain i1 = runMain i2 ∧ mainOutput i1 = mainOutput i2 := by
  subst h
  exact ⟨rfl, rfl⟩

/-- C8 amended: on a newline-terminated input the filter's output equals
the concatenation, in line order, of the per-line outputs of each line
processed independently.  (Over all inputs the claim fails: a final
unterminated parseable line is processed twice, see the counterexample.) -/
theorem claim8_homomorphism_amended {input : List Char} (h : NLTerm input) :
    runMain input = (linesOf input).flatMap processLine :=
  runMain_NLTerm h

/-- C9: a final input line not terminated by a newline is still processed —
when it parses at least one number, its sum of squares is emitted before
the process exits (the successful read that also reaches end of file is not
discarded; indeed the value is emitted twice, once more by the final failed
read that leaves the line buffered). -/
theorem claim9_last_line_processed {pre last : List Char} (h : NLTerm pre)
    (hl : '\n' ∉ last) (hne : extractAll last ≠ []) :
    runMain (pre ++ last) =
      (linesOf pre).flatMap processLine ++
        ([(extractAll last).foldl sum_squares 0] ++
          [(extractAll last).foldl sum_squares 0]) := by
  have hlast : last ≠ [] := by
    intro hnil
    rw [hnil, extractAll_nil] at hne
    exact hne rfl
  rw [runMain_with_last h hl hlast, processLine_of_some rfl hne]

/-- C10 amended: on a newline-terminated input each input line yields at
most one output line (the per-line transformation emits at most one value,
and the run is their concatenation).  (Over all inputs the claim fails: a
final unterminated parseable line is emitted twice, see the
counterexample.) -/
theorem claim10_at_most_one_amended {input : List Char} (h : NLTerm input) :
    (runMain input).length ≤ (linesOf input).length ∧
      ∀ l, (processLine l).length ≤ 1 := by
  refine ⟨?_, processLine_length_le⟩
  rw [runMain_NLTerm h]
  exact flatMap_processLine_length_le _

section ConcreteEvaluation

attribute [local semireducible] Rat.add Rat.mul Rat.inv Rat.sub Rat.ofScientific

example : extractAll ("1 2 3".data) = [1, 2, 3] := by decide
example : extractAll ("2.0 3.0".data) = [2, 3] := by decide
example : processLine ("1 2 3".data) = [14] := by decide
example : processLine ("1 2abc".data) = [5] := by decide
example : processLine ("abc".data) = [] := by decide
example : extractAll ("3.5.7".data) = [7/2, 7/10] := by decide
example : extractAll ("-2e1 .5".data) = [-20, 1/2] := by decide
example : extractAll ("1e".data) = [] := by decide
example : extractAll ("1e+".data) = [] := by decide
example : extractAll ("1e1.5".data) = [10, 1/2] := by decide
example : extractAll ("1E2E3".data) = [100] := by decide
example : extractAll ("0x10".data) = [0] := by decide
example : extractAll ("inf".data) = [] := by decide
example : extractAll ("1 1e 2".data) = [1] := by decide
example : runMain ("1 2 3\n".data) = [14] := by decide
example : runMain ("1 2 3".data) = [14, 14] := by decide
example : runMain ("1 2\nx".data) = [5] := by decide
example : runMain ("1 2\n3 4".data) = [5, 25, 25] := by decide
example : runMain ("".data) = [] := by decide
example : runMain ("\n\n".data) = [] := by decide
example : linesOf ("1 2\n3 4".data) = ["1 2".data, "3 4".data] := by decide
example : fmtDouble 14 = "14" := by decide
example : fmtDouble 13 = "13" := by decide
example : fmtDouble (1/2) = "0.5" := by decide
example : fmtDouble (1/3) = "0.333333" := by decide
example : fmtDouble 100 = "100" := by decide
example : fmtDouble 1000000 = "1e+06" := by decide
example : fmtDouble (1/10000) = "0.0001" := by decide
example : fmtDouble (1/100000) = "1e-05" := by decide
example : fmtDouble (-5/2) = "-2.5" := by decide
example : fmtDouble (2471 / 20) = "123.55" := by decide
example : fmtDouble (9999997/10) = "1e+06" := by decide
example : mainOutput ("1 2 3\n2.0 3.0\n".data) = "14\n13\n" := by decide

/-- C5: the spec's concrete cases — the input line `1 2 3` produces the
output line `14`, and the input line `2.0 3.0` produces the output line
`13` (newline-terminated input lines, exact output bytes including the
`endl`). -/
theorem claim5_concrete_lines :
    mainOutput ("1 2 3\n".data) = "14\n" ∧ mainOutput ("2.0 3.0\n".data) = "13\n" := by
  exact ⟨by decide, by decide⟩

/-- Witness for C1: the line `2 3` gives the single output value
0 + 2² + 3² = 13. -/
theorem claim1_sum_of_squares_witness :
    processLine (joinTokens [['2'], ['3']]) = [List.foldl sum_squares 0 [(2 : ℚ), 3]] ∧
      runMain (joinTokens [['2'], ['3']] ++ ['\n']) =
        [List.foldl sum_squares 0 [(2 : ℚ), 3]] :=
  claim1_sum_of_squares
    (List.Forall₂.cons ⟨by decide, by decide, by decide⟩
      (List.Forall₂.cons ⟨by decide, by decide, by decide⟩ List.Forall₂.nil))
    (by decide)

/-- Counterexample for C2 as frozen: on the line `1 2abc` the whole token
`2abc` is not a valid numeric token, yet it does not contribute nothing —
extraction takes its numeric prefix `2`, so the output value is
1² + 2² = 5, not the 1² = 1 a token-level stop would give. -/
theorem claim2_tokenlevel_counterexample :
    processLine ("1 2abc".data) = [5] ∧ processLine ("1 2abc".data) ≠ [1] := by
  exact ⟨by decide, by decide⟩

/-- Witness for C2 amended: `1 abc` yields exactly [1]. -/
theorem claim2_numeric_prefix_amended_witness :
    processLine (joinTokens [['1']] ++ ' ' :: "abc".data) =
      [List.foldl sum_squares 0 [(1 : ℚ)]] :=
  claim2_numeric_prefix_amended
    (List.Forall₂.cons ⟨by decide, by decide, by decide⟩ List.Forall₂.nil)
    (by decide) (by decide)

/-- Witness for C3: the line `abc` parses no numbers, emits nothing, exits
with status 0. -/
theorem claim3_no_output_no_error_witness :
    processLine ("abc".data) = [] ∧ runMain ("abc".data) = [] ∧
      mainExitF (streamMeasure ⟨"abc".data, false, false⟩ + 1)
        ⟨"abc".data, false, false⟩ [] = some ([], 0) :=
  claim3_no_output_no_error (by decide) (by decide)

/-- Counterexample for C4 as frozen: the input `1 2 3` (no trailing
newline) has one line, one parseable line, yet two output lines. -/
theorem claim4_count_counterexample :
    (linesOf ("1 2 3".data)).length = 1 ∧
      ((linesOf ("1 2 3".data)).filter fun l => !(extractAll l).isEmpty).length = 1 ∧
      (runMain ("1 2 3".data)).length = 2 := by
  exact ⟨by decide, by decide, by decide⟩

/-- Witness for C4 amended, on the newline-terminated input
`1 2\nx\n`: one parseable line of two, output `[5]`. -/
theorem claim4_output_count_amended_witness :
    runMain ['1', ' ', '2', '\n', 'x', '\n'] =
      ((linesOf ['1', ' ', '2', '\n', 'x', '\n']).filter
          fun l => !(extractAll l).isEmpty).map
        (fun l => (extractAll l).foldl sum_squares 0) ∧
      (runMain ['1', ' ', '2', '\n', 'x', '\n']).length =
        ((linesOf ['1', ' ', '2', '\n', 'x', '\n']).filter
            fun l => !(extractAll l).isEmpty).length :=
  claim4_output_count_amended
    (NLTerm.line ['1', ' ', '2'] (by decide) ['x', '\n']
      (NLTerm.line ['x'] (by decide) [] NLTerm.nil))

/-- Witness for C7: a run compared with itself. -/
theorem claim7_deterministic_witness :
    runMain ("1 2\n".data) = runMain ("1 2\n".data) ∧
      mainOutput ("1 2\n".data) = mainOutput ("1 2\n".data) :=
  claim7_deterministic ("1 2\n".data) ("1 2\n".data) rfl

/-- Counterexample for C8 as frozen: on the input `1 2\n3 4` (no trailing
newline) the run emits `[5, 25, 25]` while the per-line outputs concatenate
to `[5, 25]` — the final failed read re-processes the buffered last line. -/
theorem claim8_homomorphism_counterexample :
    runMain ("1 2\n3 4".data) = [5, 25, 25] ∧
      (linesOf ("1 2\n3 4".data)).flatMap processLine = [5, 25] ∧
      runMain ("1 2\n3 4".data) ≠ (linesOf ("1 2\n3 4".data)).flatMap processLine := by
  exact ⟨by decide, by decide, by decide⟩

/-- Witness for C8 amended: the newline-terminated input `2\n`. -/
theorem claim8_homomorphism_amended_witness :
    runMain ['2', '\n'] = (linesOf ['2', '\n']).flatMap processLine :=
  claim8_homomorphism_amended (NLTerm.line ['2'] (by decide) [] NLTerm.nil)

/-- Witness for C9: the single unterminated line `2` is processed and its
square emitted before exit. -/
theorem claim9_last_line_processed_witness :
    runMain ([] ++ ['2']) =
      (linesOf []).flatMap processLine ++
        ([(extractAll ['2']).foldl sum_squares 0] ++
          [(extractAll ['2']).foldl sum_squares 0]) :=
  claim9_last_line_processed NLTerm.nil (by decide) (by decide)

/-- Counterexample for C10 as frozen: the single unterminated line `4`
yields two output lines, `16` twice — the extra loop iteration after the
last successful read does emit output, because the failed `getline` leaves
`s` holding the previous line. -/
theorem claim10_duplicate_counterexample :
    (linesOf ("4".data)).length = 1 ∧ runMain ("4".data) = [16, 16] := by
  exact ⟨by decide, by decide⟩

/-- Witness for C10 amended: the newline-terminated input `4\n`. -/
theorem claim10_at_most_one_amended_witness :
    (runMain ['4', '\n']).length ≤ (linesOf ['4', '\n']).length ∧
      ∀ l, (processLine l).length ≤ 1 :=
  claim10_at_most_one_amended (NLTerm.line ['4'] (by decide) [] NLTerm.nil)

end ConcreteEvaluation

end Foo

